import Mathlib

/-!
Verification of the motif-enrichment statistics engine of
src/rgt/motifanalysis/Main.py (function main_enrichment), against its
natural-language specification.

The Python code is shallowly embedded: machine floats of the original are
modelled as exact rationals, Python dictionaries as association lists with
overwrite semantics, file streams as lists of records, and fallible code
(KeyError, ZeroDivisionError, ...) as Except/pair-with-error values.
Functions of this repository that the claims depend on but whose source is
not under src/ (get_fisher_dict and multiple_test_correction from
Statistics.py, the Result container from Util.py, the external fisher
package) are modelled from the specification and marked as such in their
doc comments.
-/

namespace RegGen

/-- Value of a dynamically typed Python attribute: the fields p_value,
corr_p_value, percent and back_percent of a Result hold a float before the
printing-preparation step and a string afterwards. -/
inductive PyVal where
  | num (q : ℚ)
  | str (s : String)
  deriving DecidableEq, Repr

/-- Numeric content of a PyVal; every site that reads it in the engine does
so while the attribute still holds a number, so the string fallback 0 is
never reached on the states the code produces. -/
def PyVal.toQ : PyVal → ℚ
  | .num q => q
  | .str _ => 0

/-- Modelled from the spec: the Result record of Util.py (absent from src/),
holding one motif's enrichment data: motif name, the 2x2 contingency counts
a, b, c, d, the derived frequencies, the raw and corrected p-values, and
the associated gene names. -/
structure Result where
  name : String
  a : ℕ
  b : ℕ
  c : ℕ
  d : ℕ
  percent : PyVal
  backPercent : PyVal
  pValue : PyVal
  corrPValue : PyVal
  genes : List String
  deriving DecidableEq, Repr

/-! ### Gene-association name encoding (Main.py lines 837-869)

Python's name.split(":") and the per-token tests are embedded through an
explicit character-level split, so that every definition evaluates inside
the kernel. -/

/-- Character-level model of Python str.split(":") on the underlying
character list. -/
def splitColonChars : List Char → List (List Char)
  | [] => [[]]
  | c :: rest =>
    if c = ':' then [] :: splitColonChars rest
    else
      match splitColonChars rest with
      | [] => [[c]]
      | t :: ts => (c :: t) :: ts

/-- Model of Python name.split(":") as used at Main.py lines 841 and 862. -/
def splitColon (s : String) : List String :=
  (splitColonChars s.data).map String.mk

/-- Test e[0] == "." on a token, as in Main.py lines 841 and 862.  Python
raises IndexError on an empty token; tokens produced by the
gene-association encoding are never empty, and no claim exercises that
input, so the empty case is mapped to false here. -/
def startsWithDot (e : String) : Bool :=
  match e.data with
  | [] => false
  | c :: _ => c = '.'

/-- Token display rule of Main.py line 841:
e if e[0] != "." else e[1:]. -/
def displayGene (e : String) : String :=
  if startsWithDot e then String.mk e.data.tail else e

/-- Evidence classification of Main.py line 862: a region is written to the
evidence file iff len([e for e in gr.name.split(":") if e[0] != "."]) > 0. -/
def hasGeneEvidence (name : String) : Bool :=
  ((splitColon name).filter (fun e => !startsWithDot e)).length > 0

/-- Python sep.join of a list of strings. -/
def joinSep (sep : String) : List String → String
  | [] => ""
  | [x] => x
  | x :: y :: xs => x ++ sep ++ joinSep sep (y :: xs)

/-- Displayed coordinate-association name of Main.py lines 838-843: "." for
the sentinel, otherwise the colon-join of gene_distance tokens with a
leading exclusion marker stripped from each gene token. -/
def coordAssocName (name prox : String) : String :=
  if name = "." then "."
  else
    joinSep ":"
      (List.zipWith (fun g p => displayGene g ++ "_" ++ p)
        (splitColon name) (splitColon prox))

/-! ### Batch grouping of motif names (Main.py lines 714-721) -/

/-- Python 2 grouping map(None, *(iter(names),) * k): contiguous chunks of
size k, the last chunk padded with None up to size k. -/
def chunkPad {α : Type} (k : ℕ) : List α → List (List (Option α))
  | [] => []
  | x :: xs =>
    if h : k = 0 then []
    else
      (((x :: xs).take k).map some ++ List.replicate (k - (x :: xs).length) none)
        :: chunkPad k ((x :: xs).drop k)
termination_by l => l.length
decreasing_by
  have hk : 0 < k := Nat.pos_of_ne_zero h
  simp only [List.length_drop, List.length_cons]
  omega

/-- Batch grouping of Main.py lines 714-721: error for processes <= 0,
singleton batches for processes == 1, Python 2 fixed-arity grouping with
None padding otherwise; in all cases the final comprehension drops the
None padding elements. -/
def motif_names_grouped (processes : ℕ) (names : List String) :
    Except String (List (List String)) :=
  if processes = 0 then .error "ME_LOW_NPROC"
  else if processes = 1 then .ok (names.map (fun e => [e]))
  else .ok ((chunkPad processes names).map (List.filterMap id))

/-! ### Contingency counting (Modelled from the spec)

Modelled from the spec: get_fisher_dict of Statistics.py is absent from
src/; spec section 4.2 specifies presence/absence counting: a region counts
as "with hit" for motif m iff at least one MPBS interval named m overlaps
it under the half-open overlap test with matching chromosome. -/

/-- Genomic interval with the fields the engine reads. -/
structure GenomicRegion where
  chrom : String
  initial : ℕ
  final : ℕ
  name : String
  deriving DecidableEq, Repr

/-- Half-open interval overlap with chromosome match (spec section 4.2). -/
def overlapsHalfOpen (r h : GenomicRegion) : Bool :=
  r.chrom = h.chrom && r.initial < h.final && h.initial < r.final

/-- Modelled from the spec: the with-hit count of get_fisher_dict
(Statistics.py, absent from src/): regions overlapping at least one MPBS
hit of motif m; each region contributes at most once. -/
def get_fisher_with (m : String) (regions mpbs : List GenomicRegion) : ℕ :=
  (regions.filter fun r => mpbs.any fun h => h.name = m && overlapsHalfOpen r h).length

/-- Modelled from the spec: the without-hit count of get_fisher_dict
(Statistics.py, absent from src/). -/
def get_fisher_without (m : String) (regions mpbs : List GenomicRegion) : ℕ :=
  (regions.filter fun r => !(mpbs.any fun h => h.name = m && overlapsHalfOpen r h)).length

/-! ### Fisher exact test (Main.py lines 897-912 and 1066-1083) -/

/-- One-sided right-tail Fisher exact test p-value of the table
[[a,b],[c,d]]: the hypergeometric probability of seeing at least a hits
among the evidence rows.  Terms with k > a+b vanish since Nat.choose is 0
past its first argument. -/
def hypergeomRightTail (a b c d : ℕ) : ℚ :=
  (Finset.sum (Finset.Icc a (a + c)) fun k =>
      (((a + b).choose k * (c + d).choose (a + c - k) : ℕ) : ℚ))
    / (((a + b + c + d).choose (a + c) : ℕ) : ℚ)

/-- Modelled from the spec: the external fisher package's pvalue routine as
contracted in spec section 4.3: the right-tail Fisher p-value, failing on
the degenerate all-zero-margin table. -/
def fisher_pvalue (a b c d : ℕ) : Except String ℚ :=
  if a + b + c + d = 0 then .error "fisher failure"
  else .ok (hypergeomRightTail a b c d)

/-- Try/except of Main.py lines 907-911 and 1078-1082: p.right_tail on
success, 1.0 when the fisher evaluation raises. -/
def resultPValue (a b c d : ℕ) : ℚ :=
  match fisher_pvalue a b c d with
  | .error _ => 1
  | .ok p => p

/-- Result construction of Main.py lines 897-912 (gene test) and 1067-1083
(site test).  The percent and back_percent divisions are evaluated before
the try block, so a zero denominator raises ZeroDivisionError out of the
enrichment run; corr_p_value starts at 0 and is assigned after multiple
test correction. -/
def mkResult (name : String) (a b c d : ℕ) (genes : List String) :
    Except String Result :=
  if a + b = 0 then .error "ZeroDivisionError"
  else if c + d = 0 then .error "ZeroDivisionError"
  else .ok
    { name := name, a := a, b := b, c := c, d := d
      percent := .num ((a : ℚ) / ((a : ℚ) + (b : ℚ)))
      backPercent := .num ((c : ℚ) / ((c : ℚ) + (d : ℚ)))
      pValue := .num (resultPValue a b c d)
      corrPValue := .num 0
      genes := genes }

/-! ### Multiple test correction (Modelled from the spec)

Modelled from the spec: multiple_test_correction of Statistics.py is
absent from src/.  Spec section 4.4, method 'indep' (the one Main.py calls):
Benjamini-Hochberg — sort the p-values ascending, divide each by its
empirical-cdf factor rank/n, enforce monotonicity by a reversed cumulative
minimum, clip at 1, and restore the original order; the rejection flags
mark every sorted position from which some later position passes its BH
threshold, and alpha affects only the flags. -/

/-- Stable-argsort comparison: order index/p-value pairs by p-value. -/
def leSnd (x y : ℕ × ℚ) : Prop := x.2 ≤ y.2

instance : DecidableRel leSnd := fun x y => inferInstanceAs (Decidable (x.2 ≤ y.2))

/-- Stable argsort of a p-value vector: each value paired with its original
index, sorted by value; ties keep input order. -/
def argsortPairs (ps : List ℚ) : List (ℕ × ℚ) :=
  List.insertionSort leSnd ps.enum

/-- BH-adjusted values over the ascending p-value list with reversed
cumulative minimum fused in: entry at sorted position j (rank r = j+1) is
min over k >= j of n * p_(k) / (k+1). -/
def bhQ (n : ℚ) : ℕ → List ℚ → List ℚ
  | _, [] => []
  | r, v :: vs =>
    match bhQ n (r + 1) vs with
    | [] => [n * v / (r : ℚ)]
    | q :: qs => min (n * v / (r : ℚ)) q :: q :: qs

/-- BH rejection flags over the ascending p-value list: sorted position j
is rejected iff some position k >= j satisfies n * p_(k) <= (k+1) * alpha. -/
def bhRej (n alpha : ℚ) : ℕ → List ℚ → List Bool
  | _, [] => []
  | r, v :: vs =>
    match bhRej n alpha (r + 1) vs with
    | [] => [decide (n * v ≤ (r : ℚ) * alpha)]
    | b :: bs => (decide (n * v ≤ (r : ℚ) * alpha) || b) :: b :: bs

/-- Position of the pair carrying original index i in the argsorted list. -/
def posOf (i : ℕ) : List (ℕ × ℚ) → ℕ
  | [] => 0
  | pr :: rest => if pr.1 = i then 0 else posOf i rest + 1

/-- Modelled from the spec: multiple_test_correction (Statistics.py, absent
from src/) under method 'indep': returns (rejected, corrected), both
restored to the input order. -/
def multiple_test_correction (ps : List ℚ) (alpha : ℚ) :
    List Bool × List ℚ :=
  let pairs := argsortPairs ps
  let s := pairs.map Prod.snd
  let q := (bhQ (ps.length : ℚ) 1 s).map (fun x => min 1 x)
  let rej := bhRej (ps.length : ℚ) alpha 1 s
  ((List.range ps.length).map fun i => rej.getD (posOf i pairs) false,
   (List.range ps.length).map fun i => q.getD (posOf i pairs) 0)

/-! ### Result ranking (Main.py lines 923-927 and 1094-1098) -/

/-- Sort key of Main.py line 924 / 1095: motif name ascending. -/
def leName (x y : Result) : Prop := x.name ≤ y.name

instance : DecidableRel leName := fun x y => inferInstanceAs (Decidable (x.name ≤ y.name))

/-- Sort key of Main.py line 925 / 1096: percent descending (reverse=True
of a stable sort keeps input order on ties). -/
def lePercDesc (x y : Result) : Prop := y.percent.toQ ≤ x.percent.toQ

instance : DecidableRel lePercDesc := fun x y => inferInstanceAs (Decidable (y.percent.toQ ≤ x.percent.toQ))

/-- Sort key of Main.py line 926 / 1097: raw p-value ascending. -/
def lePval (x y : Result) : Prop := x.pValue.toQ ≤ y.pValue.toQ

instance : DecidableRel lePval := fun x y => inferInstanceAs (Decidable (x.pValue.toQ ≤ y.pValue.toQ))

/-- Sort key of Main.py line 927 / 1098: corrected p-value ascending. -/
def leCorr (x y : Result) : Prop := x.corrPValue.toQ ≤ y.corrPValue.toQ

instance : DecidableRel leCorr := fun x y => inferInstanceAs (Decidable (x.corrPValue.toQ ≤ y.corrPValue.toQ))

/-- Ranking of Main.py lines 923-927 / 1094-1098: the four stable sorts in
source order (Python's sorted is stable; List.insertionSort places the
earlier element before ties, which is the same stable sort). -/
def rank (l : List Result) : List Result :=
  List.insertionSort leCorr
    (List.insertionSort lePval
      (List.insertionSort lePercDesc
        (List.insertionSort leName l)))

/-- Composite lexicographic key describing the net order produced by the
four stable sorts: corrected p-value, then raw p-value, then percent
descending (encoded by negation), then name. -/
def rkey (x : Result) : Lex (ℚ × Lex (ℚ × Lex (ℚ × String))) :=
  toLex (x.corrPValue.toQ, toLex (x.pValue.toQ, toLex (-x.percent.toQ, x.name)))

/-- Net composite order of the ranking step. -/
def leLex (x y : Result) : Prop := rkey x ≤ rkey y

instance : DecidableRel leLex := fun x y => inferInstanceAs (Decidable (rkey x ≤ rkey y))

/-- Tie under the composite order: all four sort keys agree. -/
def tieLex (x y : Result) : Bool := decide (leLex x y) && decide (leLex y x)

/-- Order among pairs of a stably sorted list whose input was pairwise
Q-ordered: strictly r-smaller elements come first, and r-ties keep their
input Q-order.  Chaining this through the four sorts of rank expresses the
net composite order. -/
def StableRel {α : Type} (r : α → α → Prop) (Q : α → α → Prop) (a b : α) : Prop :=
  (r a b ∧ ¬ r b a) ∨ (r a b ∧ r b a ∧ Q a b)

/-! ### Printing preparation (Main.py lines 929-934 and 1100-1105) -/

/-- Two-digit zero-padded decimal rendering. -/
def natDigits2 (n : ℕ) : String :=
  if n < 10 then "0" ++ toString n else toString n

/-- Exact-rational model of Python's "%.4e" float formatting (Main.py lines
931-932 / 1102-1103).  The original formats a binary double and rounds
half-to-even on it; this model rounds the exact rational half-up.  No
theorem below depends on the rendered digits, only on the fact that the
field becomes a string. -/
def fmt4e (q : ℚ) : String :=
  if q = 0 then "0.0000e+00"
  else
    let sign := if q < 0 then "-" else ""
    let aq := |q|
    let e : ℤ := Int.log 10 aq
    let scaled : ℤ := round (aq / (10 : ℚ) ^ e * 10000)
    let carried : ℤ × ℤ := if scaled ≥ 100000 then (10000, e + 1) else (scaled, e)
    let digits := toString carried.1.toNat
    sign ++ digits.take 1 ++ "." ++ digits.drop 1 ++ "e" ++
      (if carried.2 < 0 then "-" else "+") ++ natDigits2 carried.2.natAbs

/-- Exact-rational model of str(round(x, 4) * 100) + "%" (Main.py lines
933-934 / 1104-1105): round to four decimals, scale to a percentage,
render with two decimals.  Python's shortest-float repr differs in
trailing-zero handling; as with fmt4e the theorems below use only the
string-ness of the outcome. -/
def fmtPct (q : ℚ) : String :=
  let n : ℤ := round (q * 10000)
  toString (n / 100) ++ "." ++ natDigits2 (n % 100).toNat ++ "%"

/-- Printing preparation of Main.py lines 930-934 / 1101-1105: rebinds the
four display attributes of a Result to formatted strings, in place. -/
def prepareResult (r : Result) : Result :=
  { r with
    pValue := .str (fmt4e r.pValue.toQ)
    corrPValue := .str (fmt4e r.corrPValue.toQ)
    percent := .str (fmtPct r.percent.toQ)
    backPercent := .str (fmtPct r.backPercent.toQ) }

/-- The preparation loop over the whole result list. -/
def prepareAll (rs : List Result) : List Result :=
  rs.map prepareResult

/-! ### MPBS threshold filtering (Main.py lines 936-954 and 1107-1119) -/

/-- Python dict lookup d[k] as an association-list query (None = KeyError). -/
def alookup : List (String × ℚ) → String → Option ℚ
  | [], _ => none
  | (k, v) :: rest, key => if k = key then some v else alookup rest key

/-- Python dict assignment d[k] = v: overwrite if present, append if not. -/
def dset : List (String × ℚ) → String → ℚ → List (String × ℚ)
  | [], k, v => [(k, v)]
  | (k0, v0) :: rest, k, v =>
    if k0 = k then (k0, v) :: rest else (k0, v0) :: dset rest k v

/-- MPBS threshold filter of Main.py lines 945-949 (and 951-954,
1115-1119): each record is a tab-split line; the motif name is field
ll[3]; the record is skipped when its corrected p-value exceeds the
print threshold and written otherwise.  A record with fewer than four
fields raises IndexError and a motif name missing from the dictionary
raises KeyError; in both cases the loop aborts, keeping the records
already written. -/
def filter_mpbs : List (List String) → List (String × ℚ) → ℚ →
    List (List String) × Option String
  | [], _, _ => ([], none)
  | ll :: rest, corr, thresh =>
    if ll.length < 4 then ([], some "IndexError")
    else
      match alookup corr (ll.getD 3 "") with
      | none => ([], some "KeyError")
      | some p =>
        let r := filter_mpbs rest corr thresh
        if p > thresh then r else (ll :: r.1, r.2)

/-! ### Per-region-set control flow (Main.py lines 791-1119) -/

/-- Outputs of one region-set iteration that the filtering claims concern:
the thresholded evidence MPBS file, the thresholded non-evidence MPBS file
(written only in the gene-set branch), and the first uncaught error. -/
structure PipeOut where
  evOut : List (List String)
  nevOut : Option (List (List String))
  err : Option String
  deriving DecidableEq, Repr

/-- Result-list construction loop (Main.py lines 896-912 / 1067-1083) over
the motif names, with the count dictionaries abstracted as total maps;
the first ZeroDivisionError aborts the loop. -/
def buildResults (names : List String) (aF bF cF dF : String → ℕ)
    (geneF : String → List String) : Except String (List Result) :=
  names.mapM fun k => mkResult k (aF k) (bF k) (cF k) (dF k) (geneF k)

/-- corr_pvalue_dict construction of Main.py lines 918-921 / 1089-1092:
dictionary from motif name to corrected p-value, built in result order
with Python dict overwrite semantics. -/
def corr_pvalue_dict (rs : List Result) (corr : List ℚ) : List (String × ℚ) :=
  (List.zip (rs.map Result.name) corr).foldl (fun d kv => dset d kv.1 kv.2) []

/-- Corrected p-value assignment of Main.py line 920 / 1091. -/
def applyCorrection (rs : List Result) (corr : List ℚ) : List Result :=
  List.zipWith (fun r q => { r with corrPValue := PyVal.num q }) rs corr

/-- Control flow of one region-set iteration of main_enrichment, restricted
to the operations that decide which corrected p-values gate the MPBS
output files.  With a gene set, the gene-test results (evidence vs
non-evidence counts) are corrected and their dictionary filters both MPBS
streams (lines 914-954); the site test against the background counts runs
afterwards (lines 1067-1092) and filters nothing.  Without a gene set,
only the site test runs and its dictionary filters the evidence stream
(lines 1107-1119). -/
def processRegionSet (hasGeneSet : Bool) (motifNames : List String)
    (aF bF cF dF : String → ℕ) (geneF : String → List String)
    (bgC bgD : String → ℕ) (evStream nevStream : List (List String))
    (alpha thresh : ℚ) : PipeOut :=
  if hasGeneSet then
    match buildResults motifNames aF bF cF dF geneF with
    | .error e => ⟨[], none, some e⟩
    | .ok rs =>
      let corr := (multiple_test_correction (rs.map fun r => r.pValue.toQ) alpha).2
      let corrD := corr_pvalue_dict rs corr
      let ev := filter_mpbs evStream corrD thresh
      match ev.2 with
      | some e => ⟨ev.1, none, some e⟩
      | none =>
        let nev := filter_mpbs nevStream corrD thresh
        match nev.2 with
        | some e => ⟨ev.1, some nev.1, some e⟩
        | none =>
          match buildResults motifNames aF bF bgC bgD geneF with
          | .error e => ⟨ev.1, some nev.1, some e⟩
          | .ok _ => ⟨ev.1, some nev.1, none⟩
  else
    match buildResults motifNames aF bF bgC bgD geneF with
    | .error e => ⟨[], none, some e⟩
    | .ok rs =>
      let corr := (multiple_test_correction (rs.map fun r => r.pValue.toQ) alpha).2
      let corrD := corr_pvalue_dict rs corr
      let ev := filter_mpbs evStream corrD thresh
      ⟨ev.1, none, ev.2⟩

/-! ### Helper lemmas: batch grouping -/

theorem join_map_singleton {α : Type} (l : List α) :
    (l.map (fun e => [e])).flatten = l := by
  induction l with
  | nil => rfl
  | cons x xs ih => simp [ih]

theorem filterMap_some_pad {α : Type} (l : List α) (m : ℕ) :
    List.filterMap id (l.map some ++ List.replicate m none) = l := by
  induction l with
  | nil =>
    simp only [List.map_nil, List.nil_append]
    induction m with
    | zero => rfl
    | succ m ih => simp [List.replicate_succ, List.filterMap_cons, ih]
  | cons x xs ih => simp [List.filterMap_cons, ih]

theorem chunkPad_length {α : Type} (k : ℕ) (hk : k ≠ 0) :
    ∀ (fuel : ℕ) (l : List α), l.length ≤ fuel →
      (chunkPad k l).length = (l.length + k - 1) / k := by
  intro fuel
  induction fuel with
  | zero =>
    intro l hl
    have : l = [] := List.eq_nil_of_length_eq_zero (Nat.le_zero.mp hl)
    subst this
    have hlt : k - 1 < k := by omega
    simp [chunkPad, Nat.div_eq_of_lt hlt]
  | succ m ih =>
    intro l hl
    match l with
    | [] =>
      have hlt : k - 1 < k := by omega
      simp [chunkPad, Nat.div_eq_of_lt hlt]
    | x :: xs =>
      simp only [List.length_cons] at hl
      rw [chunkPad, dif_neg hk]
      have hdrop : ((x :: xs).drop k).length = xs.length + 1 - k := by
        simp [List.length_drop]
      have hih := ih ((x :: xs).drop k) (by rw [hdrop]; omega)
      rw [hdrop] at hih
      simp only [List.length_cons, hih]
      have h1 : xs.length + 1 + k - 1 = (xs.length + 1 - 1) + k := by omega
      rw [h1, Nat.add_div_right _ (Nat.pos_of_ne_zero hk)]
      rcases le_or_lt (xs.length + 1) k with hle | hle
      · have h2 : xs.length + 1 - k = 0 := by omega
        have h3 : xs.length + 1 - 1 < k := by omega
        rw [h2, Nat.div_eq_of_lt h3]
        have h4 : k - 1 < k := by omega
        simp [Nat.div_eq_of_lt h4]
      · have h2 : xs.length + 1 - k + k - 1 = (xs.length + 1 - 1 - k) + k := by omega
        rw [h2, Nat.add_div_right _ (Nat.pos_of_ne_zero hk)]
        have h4 : xs.length + 1 - 1 = (xs.length + 1 - 1 - k) + k := by omega
        conv_rhs => rw [h4]
        rw [Nat.add_div_right _ (Nat.pos_of_ne_zero hk)]

theorem chunkPad_join {α : Type} (k : ℕ) (hk : k ≠ 0) :
    ∀ (fuel : ℕ) (l : List α), l.length ≤ fuel →
      ((chunkPad k l).map (List.filterMap id)).flatten = l := by
  intro fuel
  induction fuel with
  | zero =>
    intro l hl
    have : l = [] := List.eq_nil_of_length_eq_zero (Nat.le_zero.mp hl)
    subst this
    simp [chunkPad]
  | succ m ih =>
    intro l hl
    match l with
    | [] => simp [chunkPad]
    | x :: xs =>
      simp only [List.length_cons] at hl
      rw [chunkPad, dif_neg hk]
      have hdrop : ((x :: xs).drop k).length = xs.length + 1 - k := by
        simp [List.length_drop]
      have hih := ih ((x :: xs).drop k) (by rw [hdrop]; omega)
      simp only [List.map_cons, List.flatten_cons, hih, filterMap_some_pad]
      exact List.take_append_drop k (x :: xs)

/-! ### Helper lemmas: filtering -/

theorem filter_mpbs_total (recs : List (List String)) (corr : List (String × ℚ))
    (thresh : ℚ)
    (h : ∀ ll ∈ recs, 4 ≤ ll.length ∧ (alookup corr (ll.getD 3 "")).isSome = true) :
    (filter_mpbs recs corr thresh).2 = none ∧
      (filter_mpbs recs corr thresh).1 =
        recs.filter (fun ll =>
          match alookup corr (ll.getD 3 "") with
          | some p => decide (p ≤ thresh)
          | none => false) := by
  induction recs with
  | nil => exact ⟨rfl, rfl⟩
  | cons ll rest ih =>
    obtain ⟨h4, hsome⟩ := h ll (List.mem_cons_self ll rest)
    obtain ⟨p, hp⟩ := Option.isSome_iff_exists.mp hsome
    obtain ⟨ih2, ih1⟩ := ih (fun x hx => h x (List.mem_cons_of_mem ll hx))
    have hlen : ¬ ll.length < 4 := by omega
    rw [filter_mpbs, if_neg hlen, hp]
    simp only [List.filter_cons, hp]
    rcases le_or_lt p thresh with hle | hlt
    · have : ¬ p > thresh := not_lt.mpr hle
      rw [if_neg this]
      simp [decide_eq_true hle, ih1, ih2]
    · rw [if_pos hlt]
      have : ¬ p ≤ thresh := not_le.mpr hlt
      simp [decide_eq_false this, ih1, ih2]

/-! ### Helper lemmas: stable sorting

List.insertionSort with relation r is exactly the stable ascending sort
that Python's sorted performs: orderedInsert places the newly considered
(earlier) element before any r-tie. -/

theorem orderedInsert_pairwise_stable {α : Type} (r : α → α → Prop)
    [DecidableRel r] {Q : α → α → Prop}
    (htrans : ∀ a b c : α, r a b → r b c → r a c)
    (htot : ∀ a b : α, r a b ∨ r b a) (x : α) :
    ∀ l : List α, l.Pairwise (StableRel r Q) → (∀ y ∈ l, Q x y) →
      (List.orderedInsert r x l).Pairwise (StableRel r Q) := by
  intro l
  induction l with
  | nil => intro _ _; simp [List.orderedInsert]
  | cons b l ih =>
    intro hp hq
    rw [List.pairwise_cons] at hp
    obtain ⟨hb, hpl⟩ := hp
    by_cases hxb : r x b
    · rw [List.orderedInsert, if_pos hxb, List.pairwise_cons]
      refine ⟨?_, List.pairwise_cons.mpr ⟨hb, hpl⟩⟩
      intro z hz
      rcases List.mem_cons.mp hz with hzb | hzl
      · subst hzb
        by_cases hbx : r z x
        · exact Or.inr ⟨hxb, hbx, hq z hz⟩
        · exact Or.inl ⟨hxb, hbx⟩
      · have hbz : r b z := by
          rcases hb z hzl with h | h
          · exact h.1
          · exact h.1
        have hxz : r x z := htrans x b z hxb hbz
        by_cases hzx : r z x
        · exact Or.inr ⟨hxz, hzx, hq z hz⟩
        · exact Or.inl ⟨hxz, hzx⟩
    · rw [List.orderedInsert, if_neg hxb, List.pairwise_cons]
      constructor
      · intro z hz
        rw [List.mem_orderedInsert] at hz
        rcases hz with hzx | hzl
        · subst hzx
          have hbx : r b z := (htot z b).resolve_left hxb
          exact Or.inl ⟨hbx, hxb⟩
        · exact hb z hzl
      · exact ih hpl (fun y hy => hq y (List.mem_cons_of_mem b hy))

theorem insertionSort_pairwise_stable {α : Type} (r : α → α → Prop)
    [DecidableRel r] {Q : α → α → Prop}
    (htrans : ∀ a b c : α, r a b → r b c → r a c)
    (htot : ∀ a b : α, r a b ∨ r b a) :
    ∀ l : List α, l.Pairwise Q →
      (List.insertionSort r l).Pairwise (StableRel r Q) := by
  intro l
  induction l with
  | nil => intro _; simp [List.insertionSort]
  | cons x l ih =>
    intro hp
    rw [List.pairwise_cons] at hp
    obtain ⟨hx, hpl⟩ := hp
    rw [List.insertionSort]
    exact orderedInsert_pairwise_stable r htrans htot x _ (ih hpl)
      (fun y hy => hx y ((List.mem_insertionSort r).mp hy))

theorem insertionSort_filter_tie {α : Type} (r : α → α → Prop)
    [DecidableRel r] (p : α → Bool)
    (hp : ∀ b c : α, p b = true → p c = true → r b c) (l : List α) :
    (List.insertionSort r l).filter p = l.filter p := by
  have hpair : (l.filter p).Pairwise r :=
    List.pairwise_of_forall_mem_list
      (fun a ha b hb => hp a b (List.of_mem_filter ha) (List.of_mem_filter hb))
  have hsub : List.Sublist (l.filter p) (List.insertionSort r l) :=
    List.sublist_insertionSort hpair (List.filter_sublist l)
  have hidem : (l.filter p).filter p = l.filter p :=
    List.filter_eq_self.mpr (fun a ha => List.of_mem_filter ha)
  have hsub2 : List.Sublist (l.filter p) ((List.insertionSort r l).filter p) := by
    have := hsub.filter p
    rwa [hidem] at this
  have hperm : ((List.insertionSort r l).filter p).Perm (l.filter p) :=
    (List.perm_insertionSort r l).filter p
  exact (hsub2.eq_of_length hperm.length_eq.symm).symm

theorem eq_of_sorted_of_perm_of_tie_filter {α : Type} (r : α → α → Prop)
    [DecidableRel r] (htot : ∀ a b : α, r a b ∨ r b a) :
    ∀ l1 l2 : List α, l1.Perm l2 → l1.Pairwise r → l2.Pairwise r →
      (∀ a : α, l1.filter (fun b => decide (r a b) && decide (r b a))
             = l2.filter (fun b => decide (r a b) && decide (r b a))) →
      l1 = l2 := by
  intro l1
  induction l1 with
  | nil =>
    intro l2 hperm _ _ _
    exact (List.Perm.eq_nil hperm.symm).symm
  | cons a t1 ih =>
    intro l2 hperm hp1 hp2 hf
    match l2 with
    | [] => exact absurd (List.Perm.eq_nil hperm) (by simp)
    | b :: t2 =>
      have hab : a = b := by
        by_cases heq : a = b
        · exact heq
        have hainl2 : a ∈ b :: t2 := hperm.subset (List.mem_cons_self a t1)
        have hbinl1 : b ∈ a :: t1 := hperm.symm.subset (List.mem_cons_self b t2)
        have hba : r b a := by
          rcases List.mem_cons.mp hainl2 with h | h
          · exact absurd h.symm (fun hh => heq hh.symm)
          · exact (List.pairwise_cons.mp hp2).1 a h
        have hab2 : r a b := by
          rcases List.mem_cons.mp hbinl1 with h | h
          · exact absurd h.symm heq
          · exact (List.pairwise_cons.mp hp1).1 b h
        have hfa := hf a
        have hra : r a a := (htot a a).elim id id
        rw [List.filter_cons, List.filter_cons] at hfa
        rw [if_pos (by simp [hra]), if_pos (by simp [hab2, hba])] at hfa
        exact (List.cons.injEq _ _ _ _ ▸ hfa).1
      subst hab
      have hperm2 : t1.Perm t2 := List.Perm.cons_inv hperm
      have hp1t := (List.pairwise_cons.mp hp1).2
      have hp2t := (List.pairwise_cons.mp hp2).2
      have hft : ∀ c : α, t1.filter (fun b => decide (r c b) && decide (r b c))
          = t2.filter (fun b => decide (r c b) && decide (r b c)) := by
        intro c
        have hfc := hf c
        rw [List.filter_cons, List.filter_cons] at hfc
        by_cases h : (decide (r c a) && decide (r a c)) = true
        · rw [if_pos h, if_pos h] at hfc
          exact (List.cons.injEq _ _ _ _ ▸ hfc).2
        · rw [if_neg h, if_neg h] at hfc
          exact hfc
      rw [ih t2 hperm2 hp1t hp2t hft]

/-! ### Helper lemmas: the four-sort composition -/

theorem pairwise_true {α : Type} (l : List α) :
    l.Pairwise (fun _ _ => True) :=
  List.pairwise_of_forall_mem_list (fun _ _ _ _ => trivial)

theorem leName_trans : ∀ a b c : Result, leName a b → leName b c → leName a c :=
  fun _ _ _ h1 h2 => le_trans h1 h2

theorem leName_total : ∀ a b : Result, leName a b ∨ leName b a :=
  fun a b => le_total a.name b.name

theorem lePercDesc_trans : ∀ a b c : Result, lePercDesc a b → lePercDesc b c → lePercDesc a c :=
  fun _ _ _ h1 h2 => le_trans h2 h1

theorem lePercDesc_total : ∀ a b : Result, lePercDesc a b ∨ lePercDesc b a :=
  fun a b => le_total b.percent.toQ a.percent.toQ

theorem lePval_trans : ∀ a b c : Result, lePval a b → lePval b c → lePval a c :=
  fun _ _ _ h1 h2 => le_trans h1 h2

theorem lePval_total : ∀ a b : Result, lePval a b ∨ lePval b a :=
  fun a b => le_total a.pValue.toQ b.pValue.toQ

theorem leCorr_trans : ∀ a b c : Result, leCorr a b → leCorr b c → leCorr a c :=
  fun _ _ _ h1 h2 => le_trans h1 h2

theorem leCorr_total : ∀ a b : Result, leCorr a b ∨ leCorr b a :=
  fun a b => le_total a.corrPValue.toQ b.corrPValue.toQ

theorem rank_perm (l : List Result) : (rank l).Perm l := by
  unfold rank
  exact ((((List.perm_insertionSort leCorr _).trans
    (List.perm_insertionSort lePval _)).trans
    (List.perm_insertionSort lePercDesc _)).trans
    (List.perm_insertionSort leName l))

theorem rank_pairwise_stable (l : List Result) :
    (rank l).Pairwise
      (StableRel leCorr (StableRel lePval (StableRel lePercDesc
        (StableRel leName (fun _ _ => True))))) := by
  unfold rank
  exact insertionSort_pairwise_stable leCorr leCorr_trans leCorr_total _
    (insertionSort_pairwise_stable lePval lePval_trans lePval_total _
      (insertionSort_pairwise_stable lePercDesc lePercDesc_trans lePercDesc_total _
        (insertionSort_pairwise_stable leName leName_trans leName_total l
          (pairwise_true l))))

theorem stableRel_imp_leLex (a b : Result) :
    StableRel leCorr (StableRel lePval (StableRel lePercDesc
      (StableRel leName (fun _ _ => True)))) a b → leLex a b := by
  intro h
  unfold leLex rkey
  rw [Prod.Lex.le_iff]
  rcases h with ⟨h1, h2⟩ | ⟨h1, h2, h3⟩
  · exact Or.inl (lt_of_le_not_le h1 h2)
  · refine Or.inr ⟨le_antisymm h1 h2, ?_⟩
    rw [Prod.Lex.le_iff]
    rcases h3 with ⟨ha, hb⟩ | ⟨ha, hb, hc⟩
    · exact Or.inl (lt_of_le_not_le ha hb)
    · refine Or.inr ⟨le_antisymm ha hb, ?_⟩
      rw [Prod.Lex.le_iff]
      rcases hc with ⟨hd, he⟩ | ⟨hd, he, hf⟩
      · exact Or.inl (neg_lt_neg (lt_of_le_not_le hd he))
      · refine Or.inr ⟨by rw [le_antisymm he hd], ?_⟩
        rcases hf with ⟨hg, _⟩ | ⟨hg, _⟩
        · exact hg
        · exact hg

theorem rank_pairwise_leLex (l : List Result) : (rank l).Pairwise leLex :=
  (rank_pairwise_stable l).imp (fun h => stableRel_imp_leLex _ _ h)

theorem tieLex_eq {a b : Result} (h : tieLex a b = true) :
    b.corrPValue.toQ = a.corrPValue.toQ ∧ b.pValue.toQ = a.pValue.toQ ∧
      b.percent.toQ = a.percent.toQ ∧ b.name = a.name := by
  unfold tieLex at h
  rw [Bool.and_eq_true, decide_eq_true_eq, decide_eq_true_eq] at h
  have hk : rkey a = rkey b := le_antisymm h.1 h.2
  unfold rkey at hk
  rw [toLex_inj, Prod.mk.injEq] at hk
  obtain ⟨hc, hk⟩ := hk
  rw [toLex_inj, Prod.mk.injEq] at hk
  obtain ⟨hp, hk⟩ := hk
  rw [toLex_inj, Prod.mk.injEq] at hk
  obtain ⟨hperc, hname⟩ := hk
  exact ⟨hc.symm, hp.symm, (neg_inj.mp hperc).symm, hname.symm⟩

theorem rank_filter_tie (l : List Result) (a : Result) :
    (rank l).filter (tieLex a) = l.filter (tieLex a) := by
  unfold rank
  rw [insertionSort_filter_tie leCorr (tieLex a)
      (fun b c hb hc => by
        unfold leCorr
        rw [(tieLex_eq hb).1, (tieLex_eq hc).1]),
    insertionSort_filter_tie lePval (tieLex a)
      (fun b c hb hc => by
        unfold lePval
        rw [(tieLex_eq hb).2.1, (tieLex_eq hc).2.1]),
    insertionSort_filter_tie lePercDesc (tieLex a)
      (fun b c hb hc => by
        unfold lePercDesc
        rw [(tieLex_eq hb).2.2.1, (tieLex_eq hc).2.2.1]),
    insertionSort_filter_tie leName (tieLex a)
      (fun b c hb hc => by
        unfold leName
        rw [(tieLex_eq hb).2.2.2, (tieLex_eq hc).2.2.2])]

theorem leLex_total : ∀ a b : Result, leLex a b ∨ leLex b a :=
  fun a b => le_total (rkey a) (rkey b)

/-! ### Helper lemmas: multiple test correction -/

theorem insertionSort_pairwise_le {α : Type} (r : α → α → Prop)
    [DecidableRel r] (htrans : ∀ a b c : α, r a b → r b c → r a c)
    (htot : ∀ a b : α, r a b ∨ r b a) (l : List α) :
    (List.insertionSort r l).Pairwise r :=
  (insertionSort_pairwise_stable r htrans htot l (pairwise_true l)).imp
    (fun h => by rcases h with ⟨h1, _⟩ | ⟨h1, _⟩ <;> exact h1)

theorem leSnd_trans : ∀ a b c : ℕ × ℚ, leSnd a b → leSnd b c → leSnd a c :=
  fun _ _ _ h1 h2 => le_trans h1 h2

theorem leSnd_total : ∀ a b : ℕ × ℚ, leSnd a b ∨ leSnd b a :=
  fun a b => le_total a.2 b.2

theorem argsortPairs_perm (ps : List ℚ) : (argsortPairs ps).Perm ps.enum :=
  List.perm_insertionSort leSnd ps.enum

theorem argsortPairs_pairwise (ps : List ℚ) : (argsortPairs ps).Pairwise leSnd :=
  insertionSort_pairwise_le leSnd leSnd_trans leSnd_total ps.enum

theorem argsortPairs_snd_perm (ps : List ℚ) :
    ((argsortPairs ps).map Prod.snd).Perm ps := by
  have h := (argsortPairs_perm ps).map Prod.snd
  rwa [List.enum_map_snd] at h

theorem argsortPairs_snd_pairwise (ps : List ℚ) :
    ((argsortPairs ps).map Prod.snd).Pairwise (· ≤ ·) :=
  (argsortPairs_pairwise ps).map Prod.snd (fun _ _ h => h)

theorem argsortPairs_snd_eq {ps1 ps2 : List ℚ} (h : ps1.Perm ps2) :
    (argsortPairs ps1).map Prod.snd = (argsortPairs ps2).map Prod.snd :=
  List.eq_of_perm_of_sorted
    (((argsortPairs_snd_perm ps1).trans h).trans (argsortPairs_snd_perm ps2).symm)
    (argsortPairs_snd_pairwise ps1) (argsortPairs_snd_pairwise ps2)

theorem argsortPairs_fst_nodup (ps : List ℚ) :
    ((argsortPairs ps).map Prod.fst).Nodup := by
  have hperm := (argsortPairs_perm ps).map Prod.fst
  rw [List.enum_map_fst] at hperm
  exact hperm.nodup_iff.mpr (List.nodup_range _)

theorem argsortPairs_length (ps : List ℚ) :
    (argsortPairs ps).length = ps.length := by
  rw [(argsortPairs_perm ps).length_eq, List.enum_length]

theorem mem_argsortPairs {ps : List ℚ} {i : ℕ} (h : i < ps.length) :
    (i, ps.getD i 0) ∈ argsortPairs ps := by
  rw [(argsortPairs_perm ps).mem_iff, List.getD_eq_getElem ps 0 h]
  have h1 : i < ps.enum.length := by simpa [List.enum_length] using h
  have h3 := List.get_mem ps.enum i h1
  have h2 : ps.enum.get ⟨i, h1⟩ = (i, ps[i]) := by
    simp [List.get_eq_getElem, List.getElem_enum]
  rwa [h2] at h3

theorem posOf_get {l : List (ℕ × ℚ)} {i : ℕ} {v : ℚ}
    (hmem : (i, v) ∈ l) (hnd : (l.map Prod.fst).Nodup) :
    posOf i l < l.length ∧ l.getD (posOf i l) (0, 0) = (i, v) := by
  induction l with
  | nil => cases hmem
  | cons pr rest ih =>
    rw [List.map_cons, List.nodup_cons] at hnd
    rw [posOf]
    by_cases hp : pr.1 = i
    · rw [if_pos hp]
      refine ⟨by simp, ?_⟩
      rcases List.mem_cons.mp hmem with h | h
      · simp [← h]
      · exfalso
        apply hnd.1
        rw [hp]
        exact List.mem_map_of_mem Prod.fst h
    · rw [if_neg hp]
      have hmem2 : (i, v) ∈ rest := by
        rcases List.mem_cons.mp hmem with h | h
        · exact absurd (congrArg Prod.fst h.symm) hp
        · exact h
      obtain ⟨hlt, hget⟩ := ih hmem2 hnd.2
      exact ⟨by simpa using Nat.succ_lt_succ hlt, by simpa using hget⟩

theorem getD_map_range {β : Type} (n i : ℕ) (f : ℕ → β) (d : β) (h : i < n) :
    ((List.range n).map f).getD i d = f i := by
  rw [List.getD_eq_getElem _ _ (by simpa using h)]
  simp

theorem map_getD_range {β : Type} (l : List β) (d : β) :
    (List.range l.length).map (fun j => l.getD j d) = l := by
  apply List.ext_getElem (by simp)
  intro i h1 h2
  simp only [List.getElem_map, List.getElem_range]
  exact List.getD_eq_getElem l d h2

theorem pairwise_getD_mono {s : List ℚ} (hs : s.Pairwise (· ≤ ·))
    {i j : ℕ} (hij : i ≤ j) (hj : j < s.length) :
    s.getD i 0 ≤ s.getD j 0 := by
  rcases Nat.eq_or_lt_of_le hij with h | h
  · subst h; exact le_rfl
  · rw [List.getD_eq_getElem _ _ (lt_trans h hj), List.getD_eq_getElem _ _ hj]
    exact List.pairwise_iff_get.mp hs ⟨i, lt_trans h hj⟩ ⟨j, hj⟩ h

theorem bhQ_length (n : ℚ) (s : List ℚ) : ∀ r : ℕ, (bhQ n r s).length = s.length := by
  induction s with
  | nil => intro r; rfl
  | cons v vs ih =>
    intro r
    rw [bhQ]
    cases hq : bhQ n (r + 1) vs with
    | nil =>
      have h := ih (r + 1)
      rw [hq] at h
      simp [← h]
    | cons q qs =>
      have h := ih (r + 1)
      rw [hq] at h
      simp [← h]

theorem bhQ_getD_succ (n : ℚ) (r j : ℕ) (v : ℚ) (vs : List ℚ) :
    (bhQ n r (v :: vs)).getD (j + 1) 0 = (bhQ n (r + 1) vs).getD j 0 := by
  rw [bhQ]
  cases hq : bhQ n (r + 1) vs with
  | nil => simp
  | cons q qs => simp

theorem bhQ_getD_zero_cons (n : ℚ) (r : ℕ) (v : ℚ) {vs : List ℚ} (h : vs ≠ []) :
    (bhQ n r (v :: vs)).getD 0 0
      = min (n * v / (r : ℚ)) ((bhQ n (r + 1) vs).getD 0 0) := by
  rw [bhQ]
  cases hq : bhQ n (r + 1) vs with
  | nil =>
    exfalso
    have hlen := bhQ_length n vs (r + 1)
    rw [hq] at hlen
    exact h (List.eq_nil_of_length_eq_zero hlen.symm)
  | cons q qs => simp

theorem bhQ_getD_le (n : ℚ) (s : List ℚ) :
    ∀ r j : ℕ, j < s.length →
      (bhQ n r s).getD j 0 ≤ n * s.getD j 0 / ((r + j : ℕ) : ℚ) := by
  induction s with
  | nil => intro r j h; cases h
  | cons v vs ih =>
    intro r j h
    match j with
    | 0 =>
      cases hvs : vs with
      | nil =>
        subst hvs
        have : (bhQ n r [v]).getD 0 0 = n * v / (r : ℚ) := rfl
        rw [this]
        simp
      | cons w ws =>
        rw [bhQ_getD_zero_cons n r v (by simp [hvs])]
        simp
    | j' + 1 =>
      rw [bhQ_getD_succ]
      have hih := ih (r + 1) j' (by simpa using h)
      have harith : r + 1 + j' = r + (j' + 1) := by omega
      rw [harith] at hih
      simpa using hih

theorem bhQ_tie (n : ℚ) (hn : 0 ≤ n) (s : List ℚ) (hs : s.Pairwise (· ≤ ·))
    (hnn : ∀ v ∈ s, 0 ≤ v) :
    ∀ r j k : ℕ, 1 ≤ r → j ≤ k → k < s.length → s.getD j 0 = s.getD k 0 →
      (bhQ n r s).getD j 0 = (bhQ n r s).getD k 0 := by
  induction s with
  | nil => intro r j k _ _ h _; cases h
  | cons v vs ih =>
    intro r j k hr hjk hk heq
    match j, k with
    | 0, 0 => rfl
    | 0, k' + 1 =>
      have hk' : k' < vs.length := by simpa using hk
      have hvs : vs ≠ [] := by
        intro hcon
        rw [hcon] at hk'
        cases hk'
      have hv1len : 1 < (v :: vs).length := by
        simp [List.length_pos.mpr hvs]
      have hkv : vs.getD k' 0 = v := by
        have := heq.symm
        simpa using this
      have hv0 : vs.getD 0 0 = v := by
        have h1 : (v :: vs).getD 0 0 ≤ (v :: vs).getD 1 0 :=
          pairwise_getD_mono hs (by omega) hv1len
        have h2 : (v :: vs).getD 1 0 ≤ (v :: vs).getD (k' + 1) 0 :=
          pairwise_getD_mono hs (by omega) hk

        have h3 : (v :: vs).getD (k' + 1) 0 = v := by simpa using hkv
        have h4 : (v :: vs).getD 0 0 = v := rfl
        have h5 : (v :: vs).getD 1 0 = vs.getD 0 0 := rfl
        rw [h4] at h1
        rw [h3] at h2
        rw [h5] at h1 h2
        exact le_antisymm h2 h1
      have ihvs := ih hs.of_cons (fun w hw => hnn w (List.mem_cons_of_mem v hw))
        (r + 1) 0 k' (by omega) (Nat.zero_le _) hk' (by rw [hv0, hkv])
      rw [bhQ_getD_zero_cons n r v hvs, bhQ_getD_succ, ← ihvs]
      have hb := bhQ_getD_le n vs (r + 1) 0 (by simpa using List.length_pos.mpr hvs)
      rw [hv0] at hb
      have hb2 : n * v / ((r + 1 + 0 : ℕ) : ℚ) ≤ n * v / (r : ℚ) := by
        have hnv : 0 ≤ n * v := mul_nonneg hn (hnn v (List.mem_cons_self v vs))
        rcases eq_or_lt_of_le hnv with h0 | h0
        · rw [← h0]
          simp
        · apply div_le_div_of_nonneg_left (le_of_lt h0)
          · exact_mod_cast Nat.lt_of_lt_of_le Nat.zero_lt_one hr
          · exact_mod_cast by omega
      exact min_eq_right (le_trans hb hb2)
    | j' + 1, k' + 1 =>
      rw [bhQ_getD_succ, bhQ_getD_succ]
      exact ih hs.of_cons (fun w hw => hnn w (List.mem_cons_of_mem v hw))
        (r + 1) j' k' (by omega) (by omega) (by simpa using hk)
        (by simpa using heq)

theorem bhRej_length (n alpha : ℚ) (s : List ℚ) :
    ∀ r : ℕ, (bhRej n alpha r s).length = s.length := by
  induction s with
  | nil => intro r; rfl
  | cons v vs ih =>
    intro r
    rw [bhRej]
    cases hq : bhRej n alpha (r + 1) vs with
    | nil =>
      have h := ih (r + 1)
      rw [hq] at h
      simp [← h]
    | cons b bs =>
      have h := ih (r + 1)
      rw [hq] at h
      simp [← h]

theorem bhRej_getD_succ (n alpha : ℚ) (r j : ℕ) (v : ℚ) (vs : List ℚ) :
    (bhRej n alpha r (v :: vs)).getD (j + 1) false
      = (bhRej n alpha (r + 1) vs).getD j false := by
  rw [bhRej]
  cases hq : bhRej n alpha (r + 1) vs with
  | nil => simp
  | cons b bs => simp

theorem bhRej_getD_zero_cons (n alpha : ℚ) (r : ℕ) (v : ℚ) {vs : List ℚ}
    (h : vs ≠ []) :
    (bhRej n alpha r (v :: vs)).getD 0 false
      = (decide (n * v ≤ (r : ℚ) * alpha) || (bhRej n alpha (r + 1) vs).getD 0 false) := by
  rw [bhRej]
  cases hq : bhRej n alpha (r + 1) vs with
  | nil =>
    exfalso
    have hlen := bhRej_length n alpha vs (r + 1)
    rw [hq] at hlen
    exact h (List.eq_nil_of_length_eq_zero hlen.symm)
  | cons b bs => simp

theorem bhRej_getD_zero_true (n alpha : ℚ) (r : ℕ) (v : ℚ) (vs : List ℚ)
    (hown : n * v ≤ (r : ℚ) * alpha) :
    (bhRej n alpha r (v :: vs)).getD 0 false = true := by
  cases hvs : vs with
  | nil =>
    have : (bhRej n alpha r [v]).getD 0 false = decide (n * v ≤ (r : ℚ) * alpha) := rfl
    rw [this, decide_eq_true hown]
  | cons w ws =>
    rw [bhRej_getD_zero_cons n alpha r v (by simp [hvs])]
    rw [decide_eq_true hown]
    simp

theorem bhRej_tie (n alpha : ℚ) (halpha : 0 ≤ alpha) (s : List ℚ)
    (hs : s.Pairwise (· ≤ ·)) :
    ∀ r j k : ℕ, j ≤ k → k < s.length → s.getD j 0 = s.getD k 0 →
      (bhRej n alpha r s).getD j false = (bhRej n alpha r s).getD k false := by
  induction s with
  | nil => intro r j k _ h _; cases h
  | cons v vs ih =>
    intro r j k hjk hk heq
    match j, k with
    | 0, 0 => rfl
    | 0, k' + 1 =>
      have hk' : k' < vs.length := by simpa using hk
      have hvs : vs ≠ [] := by
        intro hcon
        rw [hcon] at hk'
        cases hk'
      have hkv : vs.getD k' 0 = v := by
        have := heq.symm
        simpa using this
      have hv0 : vs.getD 0 0 = v := by
        have hv1len : 1 < (v :: vs).length := by
          simp [List.length_pos.mpr hvs]
        have h1 : (v :: vs).getD 0 0 ≤ (v :: vs).getD 1 0 :=
          pairwise_getD_mono hs (by omega) hv1len
        have h2 : (v :: vs).getD 1 0 ≤ (v :: vs).getD (k' + 1) 0 :=
          pairwise_getD_mono hs (by omega) hk
        have h3 : (v :: vs).getD (k' + 1) 0 = v := by simpa using hkv
        have h4 : (v :: vs).getD 0 0 = v := rfl
        have h5 : (v :: vs).getD 1 0 = vs.getD 0 0 := rfl
        rw [h4] at h1
        rw [h3] at h2
        rw [h5] at h1 h2
        exact le_antisymm h2 h1
      have ihvs := ih hs.of_cons (r + 1) 0 k' (Nat.zero_le _) hk' (by rw [hv0, hkv])
      rw [bhRej_getD_zero_cons n alpha r v hvs, bhRej_getD_succ, ← ihvs]
      by_cases hown : n * v ≤ (r : ℚ) * alpha
      · have hown1 : n * vs.getD 0 0 ≤ ((r + 1 : ℕ) : ℚ) * alpha := by
          rw [hv0]
          refine le_trans hown (mul_le_mul_of_nonneg_right ?_ halpha)
          exact_mod_cast by omega
        cases hvs2 : vs with
        | nil => exact absurd hvs2 hvs
        | cons w ws =>
          have hz := bhRej_getD_zero_true n alpha (r + 1) w ws
            (by rw [hvs2] at hown1; simpa using hown1)
          rw [hz, decide_eq_true hown]
          simp
      · rw [decide_eq_false hown]
        simp
    | j' + 1, k' + 1 =>
      rw [bhRej_getD_succ, bhRej_getD_succ]
      exact ih hs.of_cons (r + 1) j' k' (by omega) (by simpa using hk)
        (by simpa using heq)

theorem getD_map_snd (P : List (ℕ × ℚ)) (p : ℕ) (h : p < P.length) :
    (P.map Prod.snd).getD p 0 = (P.getD p (0, 0)).2 := by
  rw [List.getD_eq_getElem _ _ (by simpa using h), List.getD_eq_getElem _ _ h]
  simp

theorem getD_map_min1 (l : List ℚ) (p : ℕ) (h : p < l.length) :
    (l.map (fun x => min 1 x)).getD p 0 = min 1 (l.getD p 0) := by
  rw [List.getD_eq_getElem _ _ (by simpa using h), List.getD_eq_getElem _ _ h]
  simp

theorem mtc_pos_eq (ps : List ℚ) (alpha : ℚ)
    (hps : ∀ p ∈ ps, 0 ≤ p) (halpha : 0 ≤ alpha)
    {p1 p2 : ℕ} (h1 : p1 < ps.length) (h2 : p2 < ps.length)
    (hval : ((argsortPairs ps).map Prod.snd).getD p1 0
          = ((argsortPairs ps).map Prod.snd).getD p2 0) :
    ((bhQ (ps.length : ℚ) 1 ((argsortPairs ps).map Prod.snd)).map
        (fun x => min 1 x)).getD p1 0
      = ((bhQ (ps.length : ℚ) 1 ((argsortPairs ps).map Prod.snd)).map
          (fun x => min 1 x)).getD p2 0 ∧
    (bhRej (ps.length : ℚ) alpha 1 ((argsortPairs ps).map Prod.snd)).getD p1 false
      = (bhRej (ps.length : ℚ) alpha 1 ((argsortPairs ps).map Prod.snd)).getD p2 false := by
  have hslen : ((argsortPairs ps).map Prod.snd).length = ps.length := by
    rw [List.length_map, argsortPairs_length]
  have hsorted := argsortPairs_snd_pairwise ps
  have hnn : ∀ v ∈ (argsortPairs ps).map Prod.snd, 0 ≤ v :=
    fun v hv => hps v ((argsortPairs_snd_perm ps).subset hv)
  have hn : (0 : ℚ) ≤ (ps.length : ℚ) := by positivity
  have h1s : p1 < ((argsortPairs ps).map Prod.snd).length := by rw [hslen]; exact h1
  have h2s : p2 < ((argsortPairs ps).map Prod.snd).length := by rw [hslen]; exact h2
  have hq1 : p1 < (bhQ (ps.length : ℚ) 1 ((argsortPairs ps).map Prod.snd)).length := by
    rw [bhQ_length]; exact h1s
  have hq2 : p2 < (bhQ (ps.length : ℚ) 1 ((argsortPairs ps).map Prod.snd)).length := by
    rw [bhQ_length]; exact h2s
  constructor
  · rw [getD_map_min1 _ _ hq1, getD_map_min1 _ _ hq2]
    rcases le_total p1 p2 with h | h
    · rw [bhQ_tie (ps.length : ℚ) hn _ hsorted hnn 1 p1 p2 le_rfl h h2s hval]
    · rw [bhQ_tie (ps.length : ℚ) hn _ hsorted hnn 1 p2 p1 le_rfl h h1s hval.symm]
  · rcases le_total p1 p2 with h | h
    · exact bhRej_tie _ alpha halpha _ hsorted 1 p1 p2 h h2s hval
    · exact (bhRej_tie _ alpha halpha _ hsorted 1 p2 p1 h h1s hval.symm).symm

theorem argsort_pos_val (ps : List ℚ) {i : ℕ} (h : i < ps.length) :
    posOf i (argsortPairs ps) < (argsortPairs ps).length ∧
      ((argsortPairs ps).map Prod.snd).getD (posOf i (argsortPairs ps)) 0
        = ps.getD i 0 := by
  obtain ⟨hlt, hget⟩ := posOf_get (mem_argsortPairs h) (argsortPairs_fst_nodup ps)
  refine ⟨hlt, ?_⟩
  rw [getD_map_snd _ _ hlt, hget]

/-! ### Claims -/

/-- C1 counterexample: a record whose motif name M9 is absent from the
corrected-p-value map is not silently dropped; the filter aborts with a
KeyError (no record is written and the error is raised), contradicting the
claimed fail-closed drop. -/
theorem claim_c1_counterexample :
    filter_mpbs [["chr1", "10", "20", "M9", "0", "."]]
        [("M1", mkRat 1 100)] (mkRat 1 20)
      = ([], some "KeyError") := by
  rfl

/-- C1 amended: when every record has at least four fields and its motif
name is present in the corrected-p-value map, filtering raises no error and
passes a record through iff its motif's corrected p-value is at most the
print threshold; a record whose motif name is absent from the map instead
raises KeyError and aborts the filtering step. -/
theorem claim_c1 (recs : List (List String)) (corr : List (String × ℚ))
    (thresh : ℚ)
    (h : ∀ ll ∈ recs, 4 ≤ ll.length ∧ (alookup corr (ll.getD 3 "")).isSome = true) :
    (filter_mpbs recs corr thresh).2 = none ∧
      (filter_mpbs recs corr thresh).1 =
        recs.filter (fun ll =>
          match alookup corr (ll.getD 3 "") with
          | some p => decide (p ≤ thresh)
          | none => false) :=
  filter_mpbs_total recs corr thresh h

/-- C1 witness: on two well-formed records, one below and one above the
threshold, the filter keeps exactly the below-threshold record. -/
theorem claim_c1_witness :
    (∀ ll ∈ [["chr1", "10", "20", "M1"], ["chr1", "30", "40", "M2"]],
        4 ≤ ll.length ∧
          (alookup [("M1", (2 : ℚ)), ("M2", 5)] (ll.getD 3 "")).isSome = true) ∧
      (filter_mpbs [["chr1", "10", "20", "M1"], ["chr1", "30", "40", "M2"]]
          [("M1", (2 : ℚ)), ("M2", 5)] 3).2 = none ∧
      (filter_mpbs [["chr1", "10", "20", "M1"], ["chr1", "30", "40", "M2"]]
          [("M1", (2 : ℚ)), ("M2", 5)] 3).1 =
        List.filter (fun ll =>
          match alookup [("M1", (2 : ℚ)), ("M2", 5)] (ll.getD 3 "") with
          | some p => decide (p ≤ (3 : ℚ))
          | none => false)
          [["chr1", "10", "20", "M1"], ["chr1", "30", "40", "M2"]] :=
  ⟨by decide, claim_c1 _ _ _ (by decide)⟩

/-- C2 counterexample: with an empty evidence partition the counts are the
degenerate zeros, but the engine does not continue: the percent division
a/(a+b) raises ZeroDivisionError instead of producing a well-defined
value. -/
theorem claim_c2_counterexample :
    get_fisher_with "M1" [] [] = 0 ∧ get_fisher_without "M1" [] [] = 0 ∧
      mkResult "M1" 0 0 1 199 [] = .error "ZeroDivisionError" :=
  ⟨rfl, rfl, rfl⟩

/-- C2 amended: an empty evidence (or reference) partition yields
contingency counts of 0 for every motif, but the derived quantities
percent = a/(a+b) and back_percent = c/(c+d) are then divisions by zero:
the result construction aborts with ZeroDivisionError rather than
continuing as a warning-level condition. -/
theorem claim_c2 (m name : String) (mpbs : List GenomicRegion)
    (a b c d : ℕ) (genes : List String) :
    get_fisher_with m [] mpbs = 0 ∧ get_fisher_without m [] mpbs = 0 ∧
      mkResult name 0 0 c d genes = .error "ZeroDivisionError" ∧
      mkResult name a b 0 0 genes = .error "ZeroDivisionError" := by
  refine ⟨rfl, rfl, rfl, ?_⟩
  unfold mkResult
  split
  · rfl
  · rfl

/-- C3 counterexample: a region whose single gene token carries the
exclusion marker is displayed with the marker stripped (it looks
associated with G1), yet the evidence classification does not count it:
the region goes to the non-evidence partition. -/
theorem claim_c3_counterexample :
    hasGeneEvidence ".G1" = false ∧ coordAssocName ".G1" "100" = "G1_100" := by
  constructor
  · rfl
  · rfl

/-- C3 amended: a gene-associated region is classified into the evidence
partition iff at least one token of its encoded name does not start with
the exclusion marker "."; in particular a gene token whose symbol starts
with the marker is stripped for display but does not count the region as
associated. -/
theorem claim_c3 (name : String) :
    hasGeneEvidence name = true ↔
      ∃ e ∈ splitColon name, startsWithDot e = false := by
  unfold hasGeneEvidence
  rw [decide_eq_true_eq, gt_iff_lt, List.length_pos_iff_exists_mem]
  constructor
  · rintro ⟨e, he⟩
    have h2 := List.mem_filter.mp he
    exact ⟨e, h2.1, by simpa using h2.2⟩
  · rintro ⟨e, hmem, hdot⟩
    exact ⟨e, List.mem_filter.mpr ⟨hmem, by simp [hdot]⟩⟩

/-- C5: the p-value of a contingency table defaults to 1.0 when the fisher
evaluation fails (degenerate all-zero table), with no error propagated,
and otherwise equals the one-sided right-tail Fisher p-value of
[[a,b],[c,d]]. -/
theorem claim_c5 (a b c d : ℕ) :
    (a + b + c + d = 0 → resultPValue a b c d = 1) ∧
      (a + b + c + d ≠ 0 →
        resultPValue a b c d = hypergeomRightTail a b c d) := by
  constructor <;> intro h <;> simp [resultPValue, fisher_pvalue, h]

/-- C5 witness: the all-zero table defaults to 1 and the table
(5,95,1,199) gets its Fisher right-tail p-value. -/
theorem claim_c5_witness :
    ((0 : ℕ) + 0 + 0 + 0 = 0 ∧ resultPValue 0 0 0 0 = 1) ∧
      ((5 : ℕ) + 95 + 1 + 199 ≠ 0 ∧
        resultPValue 5 95 1 199 = hypergeomRightTail 5 95 1 199) :=
  ⟨⟨by decide, (claim_c5 0 0 0 0).1 (by decide)⟩,
   ⟨by decide, (claim_c5 5 95 1 199).2 (by decide)⟩⟩

/-- C6 counterexample: the printing-preparation step that runs between
sorting and reporting rebinds p_value: after it, the field no longer holds
the value it held at the end of the sorting step (it is now a formatted
string). -/
theorem claim_c6_counterexample :
    (prepareResult
        { name := "M1", a := 5, b := 95, c := 1, d := 199,
          percent := .num (mkRat 1 20), backPercent := .num (mkRat 1 200),
          pValue := .num (mkRat 3 1000), corrPValue := .num (mkRat 1 100),
          genes := ["G1"] }).pValue
      ≠ ({ name := "M1", a := 5, b := 95, c := 1, d := 199,
           percent := .num (mkRat 1 20), backPercent := .num (mkRat 1 200),
           pValue := .num (mkRat 3 1000), corrPValue := .num (mkRat 1 100),
           genes := ["G1"] } : Result).pValue :=
  fun h => PyVal.noConfusion h

/-- C6 amended: after correction and sorting, the printing-preparation step
mutates exactly the four display fields, replacing p_value and corr_p_value
by their "%.4e" renderings and percent and back_percent by their
percentage renderings, while name, the counts a, b, c, d and the gene list
are unchanged; reporting consumes these reformatted records. -/
theorem claim_c6 (r : Result) :
    (prepareResult r).name = r.name ∧ (prepareResult r).a = r.a ∧
      (prepareResult r).b = r.b ∧ (prepareResult r).c = r.c ∧
      (prepareResult r).d = r.d ∧ (prepareResult r).genes = r.genes ∧
      (prepareResult r).pValue = .str (fmt4e r.pValue.toQ) ∧
      (prepareResult r).corrPValue = .str (fmt4e r.corrPValue.toQ) ∧
      (prepareResult r).percent = .str (fmtPct r.percent.toQ) ∧
      (prepareResult r).backPercent = .str (fmtPct r.backPercent.toQ) :=
  ⟨rfl, rfl, rfl, rfl, rfl, rfl, rfl, rfl, rfl, rfl⟩

/-- C7: for processes >= 1 the batch grouping produces
ceil(n/processes) = (n + processes - 1) / processes contiguous batches
whose concatenation is exactly the original sorted motif list: no name is
duplicated or dropped and no padding element survives. -/
theorem claim_c7 (processes : ℕ) (names : List String) (h : 1 ≤ processes) :
    ∃ batches, motif_names_grouped processes names = .ok batches ∧
      batches.length = (names.length + processes - 1) / processes ∧
      batches.flatten = names := by
  have hk : processes ≠ 0 := by omega
  rcases Nat.eq_or_lt_of_le h with h1 | h2
  · refine ⟨names.map (fun e => [e]), ?_, ?_, join_map_singleton names⟩
    · simp [motif_names_grouped, ← h1]
    · simp [← h1]
  · refine ⟨(chunkPad processes names).map (List.filterMap id), ?_, ?_, ?_⟩
    · have hne : processes ≠ 1 := by omega
      simp [motif_names_grouped, hk, hne]
    · rw [List.length_map]
      exact chunkPad_length processes hk names.length names le_rfl
    · exact chunkPad_join processes hk names.length names le_rfl

/-- C7 witness: four names in batches of three give two batches whose
concatenation restores the list. -/
theorem claim_c7_witness :
    1 ≤ 3 ∧
      ∃ batches, motif_names_grouped 3 ["a", "b", "c", "d"] = .ok batches ∧
        batches.length = (4 + 3 - 1) / 3 ∧
        batches.flatten = ["a", "b", "c", "d"] :=
  ⟨by decide, claim_c7 3 ["a", "b", "c", "d"] (by decide)⟩

/-- C10: when a gene set is present, the thresholded evidence and
non-evidence MPBS outputs are exactly the streams filtered through the
corrected p-values of the gene test (evidence vs non-evidence counts), and
they are independent of the background counts: the site-test corrected
p-values computed in the final wrap-up never gate any MPBS output, because
that wrap-up filters only when no gene set exists. -/
theorem claim_c10 (motifNames : List String) (aF bF cF dF : String → ℕ)
    (geneF : String → List String) (bgC bgD bgC2 bgD2 : String → ℕ)
    (evStream nevStream : List (List String)) (alpha thresh : ℚ) :
    ((processRegionSet true motifNames aF bF cF dF geneF bgC bgD
          evStream nevStream alpha thresh).evOut
        = (processRegionSet true motifNames aF bF cF dF geneF bgC2 bgD2
            evStream nevStream alpha thresh).evOut ∧
      (processRegionSet true motifNames aF bF cF dF geneF bgC bgD
          evStream nevStream alpha thresh).nevOut
        = (processRegionSet true motifNames aF bF cF dF geneF bgC2 bgD2
            evStream nevStream alpha thresh).nevOut) ∧
    (processRegionSet true motifNames aF bF cF dF geneF bgC bgD
        evStream nevStream alpha thresh).evOut
      = (match buildResults motifNames aF bF cF dF geneF with
         | .error _ => []
         | .ok rs =>
           (filter_mpbs evStream
             (corr_pvalue_dict rs
               (multiple_test_correction (rs.map fun r => r.pValue.toQ) alpha).2)
             thresh).1) ∧
    (processRegionSet true motifNames aF bF cF dF geneF bgC bgD
        evStream nevStream alpha thresh).nevOut
      = (match buildResults motifNames aF bF cF dF geneF with
         | .error _ => none
         | .ok rs =>
           match (filter_mpbs evStream
               (corr_pvalue_dict rs
                 (multiple_test_correction (rs.map fun r => r.pValue.toQ) alpha).2)
               thresh).2 with
           | some _ => none
           | none =>
             some (filter_mpbs nevStream
               (corr_pvalue_dict rs
                 (multiple_test_correction (rs.map fun r => r.pValue.toQ) alpha).2)
               thresh).1) := by
  unfold processRegionSet
  cases hb : buildResults motifNames aF bF cF dF geneF with
  | error e => simp
  | ok rs =>
    simp only [if_true]
    cases he : (filter_mpbs evStream
        (corr_pvalue_dict rs
          (multiple_test_correction (rs.map fun r => r.pValue.toQ) alpha).2)
        thresh).2 with
    | some e2 => simp [he]
    | none =>
      simp only [he]
      cases hn : (filter_mpbs nevStream
          (corr_pvalue_dict rs
            (multiple_test_correction (rs.map fun r => r.pValue.toQ) alpha).2)
          thresh).2 with
      | some e3 =>
        cases buildResults motifNames aF bF bgC bgD geneF <;>
          cases buildResults motifNames aF bF bgC2 bgD2 geneF <;> simp [hn]
      | none =>
        cases buildResults motifNames aF bF bgC bgD geneF <;>
          cases buildResults motifNames aF bF bgC2 bgD2 geneF <;> simp [hn]

/-- C8: multiple-test correction is permutation-equivariant and
index-aligned: correcting a permuted p-value vector yields the
correspondingly permuted rejected and corrected outputs with identical
values (the permutation is given as the index list sigma, a rearrangement
of 0..n-1).  P-values and alpha are nonnegative, as probabilities are. -/
theorem claim_c8 (ps : List ℚ) (alpha : ℚ) (σ : List ℕ)
    (hσ : σ.Perm (List.range ps.length))
    (hps : ∀ p ∈ ps, 0 ≤ p) (halpha : 0 ≤ alpha) :
    (multiple_test_correction (σ.map fun j => ps.getD j 0) alpha).1
        = σ.map (fun j => (multiple_test_correction ps alpha).1.getD j false) ∧
      (multiple_test_correction (σ.map fun j => ps.getD j 0) alpha).2
        = σ.map (fun j => (multiple_test_correction ps alpha).2.getD j 0) := by
  have hσlen : σ.length = ps.length := by rw [hσ.length_eq, List.length_range]
  have hσmem : ∀ j ∈ σ, j < ps.length := by
    intro j hj
    have h := hσ.subset hj
    simpa using h
  have hlen2 : (σ.map fun j => ps.getD j 0).length = ps.length := by
    rw [List.length_map, hσlen]
  have hperm : (σ.map fun j => ps.getD j 0).Perm ps := by
    have h := hσ.map (fun j => ps.getD j 0)
    rwa [map_getD_range ps 0] at h
  have hs_eq : (argsortPairs (σ.map fun j => ps.getD j 0)).map Prod.snd
      = (argsortPairs ps).map Prod.snd := argsortPairs_snd_eq hperm
  have hkey : ∀ t : ℕ, ∀ ht : t < σ.length,
      (posOf t (argsortPairs (σ.map fun j => ps.getD j 0)) < ps.length ∧
        posOf (σ.get ⟨t, ht⟩) (argsortPairs ps) < ps.length) ∧
      ((argsortPairs ps).map Prod.snd).getD
          (posOf t (argsortPairs (σ.map fun j => ps.getD j 0))) 0
        = ((argsortPairs ps).map Prod.snd).getD
            (posOf (σ.get ⟨t, ht⟩) (argsortPairs ps)) 0 := by
    intro t ht
    have htp : t < ps.length := by rw [← hσlen]; exact ht
    have htX : t < (σ.map fun j => ps.getD j 0).length := by rw [hlen2]; exact htp
    obtain ⟨hp1lt, hp1val⟩ := argsort_pos_val (σ.map fun j => ps.getD j 0) htX
    rw [hs_eq] at hp1val
    have hXt : (σ.map fun j => ps.getD j 0).getD t 0
        = ps.getD (σ.get ⟨t, ht⟩) 0 := by
      rw [List.getD_eq_getElem _ _ htX]
      simp
    rw [hXt] at hp1val
    have hσt : σ.get ⟨t, ht⟩ < ps.length := hσmem _ (σ.get_mem t ht)
    obtain ⟨hp2lt, hp2val⟩ := argsort_pos_val ps hσt
    refine ⟨⟨?_, ?_⟩, ?_⟩
    · rw [argsortPairs_length, hlen2] at hp1lt
      exact hp1lt
    · rw [argsortPairs_length] at hp2lt
      exact hp2lt
    · rw [hp1val, hp2val]
  constructor
  · simp only [multiple_test_correction]
    rw [hlen2, hs_eq]
    apply List.ext_getElem
    · simp [hσlen]
    · intro t ht1 ht2
      rw [List.getElem_map, List.getElem_map, List.getElem_range]
      have ht2' : t < σ.length := by simpa using ht2
      obtain ⟨⟨hb1, hb2⟩, hval⟩ := hkey t ht2'
      have hσt : σ[t] < ps.length := hσmem _ (List.getElem_mem ht2')
      rw [getD_map_range ps.length (σ[t]) _ false hσt]
      have hgs : σ.get ⟨t, ht2'⟩ = σ[t] := rfl
      rw [hgs] at hb2 hval
      exact (mtc_pos_eq ps alpha hps halpha hb1 hb2 hval).2
  · simp only [multiple_test_correction]
    rw [hlen2, hs_eq]
    apply List.ext_getElem
    · simp [hσlen]
    · intro t ht1 ht2
      rw [List.getElem_map, List.getElem_map, List.getElem_range]
      have ht2' : t < σ.length := by simpa using ht2
      obtain ⟨⟨hb1, hb2⟩, hval⟩ := hkey t ht2'
      have hσt : σ[t] < ps.length := hσmem _ (List.getElem_mem ht2')
      rw [getD_map_range ps.length (σ[t]) _ 0 hσt]
      have hgs : σ.get ⟨t, ht2'⟩ = σ[t] := rfl
      rw [hgs] at hb2 hval
      exact (mtc_pos_eq ps alpha hps halpha hb1 hb2 hval).1

/-- C8 witness: a three-entry p-value vector with a tie, cyclically
permuted, yields the correspondingly permuted outputs. -/
theorem claim_c8_witness :
    [2, 0, 1].Perm (List.range [mkRat 1 10, mkRat 1 2, mkRat 1 10].length) ∧
      ((multiple_test_correction
            ([2, 0, 1].map fun j => [mkRat 1 10, mkRat 1 2, mkRat 1 10].getD j 0)
            (mkRat 1 20)).1
          = [2, 0, 1].map (fun j =>
              (multiple_test_correction [mkRat 1 10, mkRat 1 2, mkRat 1 10]
                  (mkRat 1 20)).1.getD j false) ∧
        (multiple_test_correction
            ([2, 0, 1].map fun j => [mkRat 1 10, mkRat 1 2, mkRat 1 10].getD j 0)
            (mkRat 1 20)).2
          = [2, 0, 1].map (fun j =>
              (multiple_test_correction [mkRat 1 10, mkRat 1 2, mkRat 1 10]
                  (mkRat 1 20)).2.getD j 0)) :=
  ⟨by decide,
   claim_c8 [mkRat 1 10, mkRat 1 2, mkRat 1 10] (mkRat 1 20) [2, 0, 1]
     (by decide) (by decide) (by decide)⟩

/-- C4: the ranking step applies the four stable sorts in source order
(name ascending, percent descending, raw p-value ascending, corrected
p-value ascending — that is how rank is defined), and the net effect is a
stable sort by the composite key: the output is a permutation of the
input, pairwise ordered by corrected p-value with ties broken by raw
p-value, then by evidence frequency descending, then by name, and
full-key ties keep their input order (the filter along any tie class is
unchanged). -/
theorem claim_c4 (l : List Result) :
    (rank l).Perm l ∧ (rank l).Pairwise leLex ∧
      ∀ a : Result, (rank l).filter (tieLex a) = l.filter (tieLex a) :=
  ⟨rank_perm l, rank_pairwise_leLex l, rank_filter_tie l⟩

/-- C9: ranking is idempotent: applying the four-stable-sort composition
twice yields the same list as applying it once. -/
theorem claim_c9 (l : List Result) : rank (rank l) = rank l :=
  eq_of_sorted_of_perm_of_tie_filter leLex leLex_total (rank (rank l)) (rank l)
    (rank_perm (rank l)) (rank_pairwise_leLex (rank l)) (rank_pairwise_leLex l)
    (fun a => rank_filter_tie (rank l) a)

end RegGen
